import Mathlib

/-!
Verification of the schema-inference engine of the `bakul` data-hosting API.

The single logic-bearing unit of the repository is `generateSchema`
(src/src/index.ts, lines 147-177): a recursive traversal turning an arbitrary
JSON value into a structural type descriptor.  This file embeds that function
and proves the specified properties about it.
-/

/-- A JSON value as handled by the source: `null`, booleans, numbers
(integers and floats share one constructor since the classifier never
inspects the numeric value), strings, ordered arrays, and keyed mappings
whose entries are kept in insertion order, plus the absent/`undefined`
marker that an object field can carry in the host language. -/
inductive Value where
  | null : Value
  | undef : Value
  | bool (b : Bool) : Value
  | num (n : Int) : Value
  | str (s : String) : Value
  | arr (elems : List Value) : Value
  | obj (entries : List (String × Value)) : Value

/-- The shapes `generateSchema` returns: `{type: t}` for a primitive tag,
the empty descriptor `{}`, `{type:"array", items: d}`, and
`{type:"object", properties: ps, required: rs}`.  In the source the
`required` field is set to `undefined` when the list is empty, which makes
it absent from the serialized JSON object; `rs` here is the raw list built
by the loop and `descToValue` below performs the omission. -/
inductive Desc where
  | prim (type : String) : Desc
  | empty : Desc
  | arrD (items : Desc) : Desc
  | objD (properties : List (String × Desc)) (required : List String) : Desc

/-- The test `value !== null && value !== undefined` guarding the
`required.push(key)` in the source loop (negated). -/
def isNullOrUndef : Value → Bool
  | .null => true
  | .undef => true
  | _ => false

/-- The `required` accumulator of the source loop over `Object.entries(data)`:
a key is pushed exactly when its value is neither `null` nor `undefined`. -/
def requiredKeys : List (String × Value) → List String
  | [] => []
  | (k, v) :: rest =>
      if isNullOrUndef v then requiredKeys rest else k :: requiredKeys rest

mutual

/-- `generateSchema` from src/src/index.ts:147-177.  The branch order follows
the source: the `null` check first, then `Array.isArray` (empty array gives
`{type:'array', items:{}}`, otherwise only `data[0]` is recursed), then the
`typeof data === 'object'` branch building `properties` and `required` over
the entries in iteration order, and finally `{type: typeof data}` for the
remaining primitives. -/
def generateSchema : Value → Desc
  | .null => .prim "null"
  | .arr [] => .arrD .empty
  | .arr (x :: _) => .arrD (generateSchema x)
  | .obj entries => .objD (schemaProps entries) (requiredKeys entries)
  | .bool _ => .prim "boolean"
  | .num _ => .prim "number"
  | .str _ => .prim "string"
  | .undef => .prim "undefined"

/-- The `properties` accumulator of the source loop:
`properties[key] = generateSchema(value)` for each entry in order. -/
def schemaProps : List (String × Value) → List (String × Desc)
  | [] => []
  | (k, v) :: rest => (k, generateSchema v) :: schemaProps rest

end

mutual

/-- Rendering of a descriptor as the JSON value the source actually returns.
`required: undefined` in the source's object literal means the field is
absent from the JSON document, so an empty `required` list produces no
`required` key at all. -/
def descToValue : Desc → Value
  | .prim t => .obj [("type", .str t)]
  | .empty => .obj []
  | .arrD d => .obj [("type", .str "array"), ("items", descToValue d)]
  | .objD ps rs =>
      .obj ([("type", .str "object"),
             ("properties", .obj (descPropsToValues ps))] ++
            (if rs.isEmpty then [] else [("required", .arr (rs.map .str))]))

def descPropsToValues : List (String × Desc) → List (String × Value)
  | [] => []
  | (k, d) :: rest => (k, descToValue d) :: descPropsToValues rest

end

/-! ### Basic lemmas about the accumulating loops -/

/-- The `required` loop is the filter of the entries by the push condition,
projected to keys. -/
theorem requiredKeys_eq_filter (l : List (String × Value)) :
    requiredKeys l = (l.filter fun kv => !isNullOrUndef kv.2).map Prod.fst := by
  induction l with
  | nil => rfl
  | cons kv rest ih =>
      obtain ⟨k, v⟩ := kv
      by_cases h : isNullOrUndef v = true <;>
        simp [requiredKeys, List.filter_cons, h, ih]

/-- The `properties` loop is the entry-wise map of `generateSchema` over the
entries, in iteration order. -/
theorem schemaProps_eq_map (l : List (String × Value)) :
    schemaProps l = l.map fun kv => (kv.1, generateSchema kv.2) := by
  induction l with
  | nil => rfl
  | cons kv rest ih =>
      obtain ⟨k, v⟩ := kv
      simp [schemaProps, ih]

/-- `properties` has exactly the input's keys, in the input's order. -/
theorem schemaProps_keys (l : List (String × Value)) :
    (schemaProps l).map Prod.fst = l.map Prod.fst := by
  induction l with
  | nil => rfl
  | cons kv rest ih =>
      obtain ⟨k, v⟩ := kv
      simp [schemaProps, ih]

/-- Membership in the `required` list characterised by the push condition. -/
theorem mem_requiredKeys (l : List (String × Value)) (k : String) :
    k ∈ requiredKeys l ↔ ∃ v, (k, v) ∈ l ∧ isNullOrUndef v = false := by
  induction l with
  | nil => simp [requiredKeys]
  | cons kv rest ih =>
      obtain ⟨k', v'⟩ := kv
      by_cases h : isNullOrUndef v' = true
      · simp only [requiredKeys, if_pos h, ih, List.mem_cons]
        constructor
        · rintro ⟨v, hv, hvf⟩
          exact ⟨v, Or.inr hv, hvf⟩
        · rintro ⟨v, hv | hv, hvf⟩
          · obtain ⟨hk, hveq⟩ := Prod.mk.injEq .. ▸ hv
            cases hv
            rw [h] at hvf
            cases hvf
          · exact ⟨v, hv, hvf⟩
      · simp only [requiredKeys, if_neg h, List.mem_cons, ih]
        constructor
        · rintro (hk | ⟨v, hv, hvf⟩)
          · exact ⟨v', Or.inl (by rw [hk]), by simpa using h⟩
          · exact ⟨v, Or.inr hv, hvf⟩
        · rintro ⟨v, hv | hv, hvf⟩
          · cases hv
            exact Or.inl rfl
          · exact Or.inr ⟨v, hv, hvf⟩

/-! ### C1, C2, C5, C6 -/

/-- C1: on a non-empty array the result is `{type:"array",
items: infer(first)}`; in particular two non-empty arrays with the same
first element get the same descriptor, whatever their later elements are. -/
theorem infer_nonempty_array_first_element_only (x : Value) (xs ys : List Value) :
    generateSchema (.arr (x :: xs)) = .arrD (generateSchema x) ∧
    generateSchema (.arr (x :: xs)) = generateSchema (.arr (x :: ys)) :=
  ⟨rfl, rfl⟩

/-- C2: for an object, `properties` maps each key, in iteration order, to the
descriptor of its value, and `required` holds exactly the keys whose values
are neither `null` nor the absent marker, in the object's own key order. -/
theorem infer_object_properties_required (entries : List (String × Value)) :
    generateSchema (.obj entries) =
      .objD (entries.map fun kv => (kv.1, generateSchema kv.2))
            ((entries.filter fun kv => !isNullOrUndef kv.2).map Prod.fst) ∧
    ∀ k, k ∈ requiredKeys entries ↔
      ∃ v, (k, v) ∈ entries ∧ isNullOrUndef v = false := by
  refine ⟨?_, mem_requiredKeys entries⟩
  show Desc.objD (schemaProps entries) (requiredKeys entries) = _
  rw [schemaProps_eq_map, requiredKeys_eq_filter]

/-- C5: primitive classification — booleans, numbers (the numeric value is
never inspected), strings, the absent marker and `null` map to their tags,
and the `null` classification also applies at nested call sites (array
first element, object property value). -/
theorem infer_primitive_classification :
    (∀ b : Bool, generateSchema (.bool b) = .prim "boolean") ∧
    (∀ n : Int, generateSchema (.num n) = .prim "number") ∧
    (∀ s : String, generateSchema (.str s) = .prim "string") ∧
    generateSchema .undef = .prim "undefined" ∧
    generateSchema .null = .prim "null" ∧
    (∀ xs : List Value, generateSchema (.arr (.null :: xs)) = .arrD (.prim "null")) ∧
    (∀ (k : String) (l : List (String × Value)),
      generateSchema (.obj ((k, .null) :: l)) =
        .objD ((k, .prim "null") :: schemaProps l) (requiredKeys l)) :=
  ⟨fun _ => rfl, fun _ => rfl, fun _ => rfl, rfl, rfl, fun _ => rfl, fun _ _ => rfl⟩

/-- C6: the empty array gets `{type:"array", items:{}}`, with the empty
descriptor rendered as the empty JSON object. -/
theorem infer_empty_array :
    generateSchema (.arr []) = .arrD .empty ∧
    descToValue (generateSchema (.arr [])) =
      .obj [("type", .str "array"), ("items", .obj [])] :=
  ⟨rfl, rfl⟩

/-! ### An induction principle for `Value` with membership hypotheses -/

/-- Structural induction over `Value` giving the inductive hypothesis for
every member of an array and every entry value of an object. -/
theorem Value.recMem {P : Value → Prop}
    (hnull : P .null) (hundef : P .undef)
    (hbool : ∀ b, P (.bool b)) (hnum : ∀ n, P (.num n)) (hstr : ∀ s, P (.str s))
    (harr : ∀ xs, (∀ x ∈ xs, P x) → P (.arr xs))
    (hobj : ∀ l, (∀ kv ∈ l, P kv.2) → P (.obj l)) :
    ∀ v, P v
  | .null => hnull
  | .undef => hundef
  | .bool b => hbool b
  | .num n => hnum n
  | .str s => hstr s
  | .arr xs =>
      harr xs fun x hx =>
        Value.recMem hnull hundef hbool hnum hstr harr hobj x
  | .obj l =>
      hobj l fun kv hkv =>
        Value.recMem hnull hundef hbool hnum hstr harr hobj kv.2
termination_by v => sizeOf v
decreasing_by
  · have := List.sizeOf_lt_of_mem hx
    simp only [Value.arr.sizeOf_spec]
    omega
  · have h1 := List.sizeOf_lt_of_mem hkv
    obtain ⟨a, b⟩ := kv
    simp only [Value.obj.sizeOf_spec, Prod.mk.sizeOf_spec] at *
    omega

/-! ### JSON field access and the descriptor grammar -/

/-- Field access on a JSON object value (first entry with the key). -/
def getField : Value → String → Option Value
  | .obj entries, k => (entries.find? fun kv => kv.1 == k).map Prod.snd
  | _, _ => none

/-- The keys of a JSON object value, in order. -/
def topKeys : Value → List String
  | .obj entries => entries.map Prod.fst
  | _ => []

/-- The rendered `properties` entries are the entry-wise rendering. -/
theorem descPropsToValues_eq_map (l : List (String × Desc)) :
    descPropsToValues l = l.map fun kd => (kd.1, descToValue kd.2) := by
  induction l with
  | nil => rfl
  | cons kd rest ih =>
      obtain ⟨k, d⟩ := kd
      simp [descPropsToValues, ih]

/-- The grammar of Type Descriptor JSON values: a one-field `type` object
with a primitive tag, an array descriptor whose `items` is `{}` or again a
descriptor, or an object descriptor with `properties` mapping keys to
descriptors and an optional non-empty `required` list of strings. -/
inductive IsDescV : Value → Prop where
  | primD (t : String)
      (h : t = "null" ∨ t = "boolean" ∨ t = "number" ∨ t = "string" ∨
           t = "undefined") :
      IsDescV (.obj [("type", .str t)])
  | arrEmpty : IsDescV (.obj [("type", .str "array"), ("items", .obj [])])
  | arrItems (d : Value) (hd : IsDescV d) :
      IsDescV (.obj [("type", .str "array"), ("items", d)])
  | objNoReq (ps : List (String × Value)) (hps : ∀ kv ∈ ps, IsDescV kv.2) :
      IsDescV (.obj [("type", .str "object"), ("properties", .obj ps)])
  | objReq (ps : List (String × Value)) (rs : List String) (hrs : rs ≠ [])
      (hps : ∀ kv ∈ ps, IsDescV kv.2) :
      IsDescV (.obj [("type", .str "object"), ("properties", .obj ps),
                     ("required", .arr (rs.map .str))])

/-- Every descriptor the inferencer produces renders to a JSON value of the
descriptor grammar. -/
theorem isDescV_descToValue_generateSchema (v : Value) :
    IsDescV (descToValue (generateSchema v)) := by
  induction v using Value.recMem with
  | hnull => exact .primD "null" (by simp)
  | hundef => exact .primD "undefined" (by simp)
  | hbool b => exact .primD "boolean" (by simp)
  | hnum n => exact .primD "number" (by simp)
  | hstr s => exact .primD "string" (by simp)
  | harr xs ih =>
      cases xs with
      | nil => exact .arrEmpty
      | cons x rest =>
          exact .arrItems _ (ih x (List.mem_cons_self x rest))
  | hobj l ih =>
      show IsDescV (descToValue (.objD (schemaProps l) (requiredKeys l)))
      have hprops : ∀ kv ∈ descPropsToValues (schemaProps l), IsDescV kv.2 := by
        intro kv hkv
        rw [descPropsToValues_eq_map, schemaProps_eq_map, List.map_map] at hkv
        obtain ⟨kv', hkv', hkveq⟩ := List.mem_map.mp hkv
        subst hkveq
        exact ih kv' hkv'
      by_cases hreq : (requiredKeys l).isEmpty
      · have : requiredKeys l = [] := List.isEmpty_iff.mp hreq
        simp only [descToValue, hreq, if_pos, List.append_nil]
        exact .objNoReq _ hprops
      · simp only [descToValue, hreq]
        simp only [Bool.false_eq_true, if_false]
        exact .objReq _ (requiredKeys l)
          (fun h => hreq (by simp [h, List.isEmpty_nil])) hprops

/-! ### C3, C4 -/

/-- C3: an object all of whose values are `null` or absent yields a
descriptor whose rendered JSON has no `required` key at all, while
`properties` is present with one entry per input key; the result is a JSON
value of the descriptor grammar. -/
theorem infer_all_optional_object (entries : List (String × Value))
    (h : ∀ kv ∈ entries, isNullOrUndef kv.2 = true) :
    requiredKeys entries = [] ∧
    getField (descToValue (generateSchema (.obj entries))) "required" = none ∧
    getField (descToValue (generateSchema (.obj entries))) "properties" =
      some (.obj (descPropsToValues (schemaProps entries))) ∧
    (schemaProps entries).map Prod.fst = entries.map Prod.fst ∧
    IsDescV (descToValue (generateSchema (.obj entries))) := by
  have hrk : requiredKeys entries = [] := by
    rw [requiredKeys_eq_filter]
    have hfil : entries.filter (fun kv => !isNullOrUndef kv.2) = [] := by
      rw [List.filter_eq_nil_iff]
      intro kv hkv
      simp [h kv hkv]
    rw [hfil]
    rfl
  refine ⟨hrk, ?_, ?_, schemaProps_keys entries,
    isDescV_descToValue_generateSchema _⟩
  · show getField
      (descToValue (.objD (schemaProps entries) (requiredKeys entries)))
      "required" = none
    rw [hrk]
    rfl
  · show getField
      (descToValue (.objD (schemaProps entries) (requiredKeys entries)))
      "properties" = _
    rw [hrk]
    rfl

/-- Witness for C3 at the object `{a: null, b: undefined}`. -/
theorem infer_all_optional_object_witness :
    requiredKeys [("a", Value.null), ("b", Value.undef)] = [] ∧
    getField (descToValue (generateSchema
      (.obj [("a", Value.null), ("b", Value.undef)]))) "required" = none ∧
    getField (descToValue (generateSchema
      (.obj [("a", Value.null), ("b", Value.undef)]))) "properties" =
      some (.obj (descPropsToValues
        (schemaProps [("a", Value.null), ("b", Value.undef)]))) ∧
    (schemaProps [("a", Value.null), ("b", Value.undef)]).map Prod.fst =
      [("a", Value.null), ("b", Value.undef)].map Prod.fst ∧
    IsDescV (descToValue (generateSchema
      (.obj [("a", Value.null), ("b", Value.undef)]))) :=
  infer_all_optional_object [("a", .null), ("b", .undef)] (by decide)

/-- C4 counterexample: the nested array inside the first element is itself
sampled by its own first element only — changing (or dropping) its second
element does not change the descriptor, so nested arrays are not fully
recursed over all their elements. -/
theorem infer_nested_array_also_sampled :
    generateSchema (.arr [.arr [.num 1, .str "x"]]) =
      generateSchema (.arr [.arr [.num 1, .bool true]]) ∧
    generateSchema (.arr [.arr [.num 1, .str "x"]]) =
      generateSchema (.arr [.arr [.num 1]]) ∧
    generateSchema (.arr [.arr [.num 1, .str "x"]]) =
      .arrD (.arrD (.prim "number")) :=
  ⟨rfl, rfl, rfl⟩

/-- C4 amended: first-element sampling applies uniformly at every array
level — an array of arrays is described by recursing into the first
element, where the nested array is again represented by its own first
element's descriptor. -/
theorem infer_array_sampling_uniform (x : Value) (xs ys : List Value) :
    generateSchema (.arr (.arr (x :: xs) :: ys)) =
      .arrD (.arrD (generateSchema x)) :=
  rfl

/-! ### Recursion depth and structural depth (C7, C9) -/

mutual

/-- Structural depth of a JSON value: primitives have depth 1, arrays and
objects one more than the deepest of all their children. -/
def structDepth : Value → Nat
  | .null => 1
  | .undef => 1
  | .bool _ => 1
  | .num _ => 1
  | .str _ => 1
  | .arr xs => 1 + structDepthList xs
  | .obj l => 1 + structDepthEntries l

def structDepthList : List Value → Nat
  | [] => 0
  | x :: rest => max (structDepth x) (structDepthList rest)

def structDepthEntries : List (String × Value) → Nat
  | [] => 0
  | kv :: rest => max (structDepth kv.2) (structDepthEntries rest)

end

mutual

/-- Depth of the call tree `generateSchema` actually builds on an input:
an array node only descends into its first element, an object node into
every entry value. -/
def recDepth : Value → Nat
  | .null => 1
  | .undef => 1
  | .bool _ => 1
  | .num _ => 1
  | .str _ => 1
  | .arr [] => 1
  | .arr (x :: _) => 1 + recDepth x
  | .obj l => 1 + recDepthEntries l

def recDepthEntries : List (String × Value) → Nat
  | [] => 0
  | kv :: rest => max (recDepth kv.2) (recDepthEntries rest)

end

/-- The entry loop under a fallible per-value classifier: fails as soon as
one entry's value fails. -/
def schemaPropsF (f : Value → Option Desc) :
    List (String × Value) → Option (List (String × Desc))
  | [] => some []
  | (k, v) :: rest => do
      let d ← f v
      let ps ← schemaPropsF f rest
      pure ((k, d) :: ps)

/-- `generateSchema` instrumented with fuel: each recursive call consumes
one unit, and the computation reports `none` instead of descending when the
fuel is exhausted.  The minimal sufficient fuel is the recursion depth of
the plain function. -/
def generateSchemaF : Nat → Value → Option Desc
  | 0, _ => none
  | _ + 1, .null => some (.prim "null")
  | _ + 1, .arr [] => some (.arrD .empty)
  | n + 1, .arr (x :: _) => (generateSchemaF n x).map .arrD
  | n + 1, .obj l =>
      (schemaPropsF (generateSchemaF n) l).map
        fun ps => .objD ps (requiredKeys l)
  | _ + 1, .bool _ => some (.prim "boolean")
  | _ + 1, .num _ => some (.prim "number")
  | _ + 1, .str _ => some (.prim "string")
  | _ + 1, .undef => some (.prim "undefined")

theorem recDepth_pos (v : Value) : 1 ≤ recDepth v := by
  cases v with
  | arr xs => cases xs <;> simp [recDepth]
  | obj l => simp [recDepth]
  | _ => simp [recDepth]

theorem recDepth_le_entries {l : List (String × Value)} {kv : String × Value}
    (h : kv ∈ l) : recDepth kv.2 ≤ recDepthEntries l := by
  induction l with
  | nil => cases h
  | cons kv' rest ih =>
      rcases List.mem_cons.mp h with h' | h'
      · subst h'
        exact le_max_left _ _
      · exact le_trans (ih h') (le_max_right _ _)

theorem schemaPropsF_complete (f : Value → Option Desc)
    (l : List (String × Value))
    (hf : ∀ kv ∈ l, f kv.2 = some (generateSchema kv.2)) :
    schemaPropsF f l = some (schemaProps l) := by
  induction l with
  | nil => rfl
  | cons kv rest ih =>
      obtain ⟨k, v⟩ := kv
      have h1 : f v = some (generateSchema v) :=
        hf (k, v) (List.mem_cons_self _ _)
      have h2 := ih fun kv' hkv' => hf kv' (List.mem_cons_of_mem _ hkv')
      simp [schemaPropsF, h1, h2, schemaProps]

theorem schemaPropsF_none (f : Value → Option Desc)
    (l : List (String × Value))
    (hf : ∃ kv ∈ l, f kv.2 = none) :
    schemaPropsF f l = none := by
  induction l with
  | nil => simp at hf
  | cons kv rest ih =>
      obtain ⟨k, v⟩ := kv
      cases hfv : f v with
      | none => simp [schemaPropsF, hfv]
      | some d =>
          obtain ⟨kv', hkv', hnone⟩ := hf
          rcases List.mem_cons.mp hkv' with h' | h'
          · subst h'
            rw [hfv] at hnone
            cases hnone
          · have := ih ⟨kv', h', hnone⟩
            simp [schemaPropsF, hfv, this]

theorem generateSchemaF_complete :
    ∀ n v, recDepth v ≤ n → generateSchemaF n v = some (generateSchema v) := by
  intro n
  induction n with
  | zero =>
      intro v hv
      exact absurd (le_trans (recDepth_pos v) hv) (by simp)
  | succ n ih =>
      intro v hv
      cases v with
      | null => rfl
      | undef => rfl
      | bool b => rfl
      | num m => rfl
      | str s => rfl
      | arr xs =>
          cases xs with
          | nil => rfl
          | cons x rest =>
              have hx : recDepth x ≤ n := by
                simp only [recDepth] at hv
                omega
              simp [generateSchemaF, ih x hx, generateSchema]
      | obj l =>
          have hl : recDepthEntries l ≤ n := by
            simp only [recDepth] at hv
            omega
          have hall : ∀ kv ∈ l, generateSchemaF n kv.2 =
              some (generateSchema kv.2) :=
            fun kv hkv => ih kv.2 (le_trans (recDepth_le_entries hkv) hl)
          simp [generateSchemaF, schemaPropsF_complete _ _ hall, generateSchema]

theorem exists_entry_of_lt_recDepthEntries {n : Nat}
    {l : List (String × Value)} (h : n < recDepthEntries l) :
    ∃ kv ∈ l, n < recDepth kv.2 := by
  induction l with
  | nil => simp [recDepthEntries] at h
  | cons kv rest ih =>
      simp only [recDepthEntries, lt_max_iff] at h
      rcases h with h | h
      · exact ⟨kv, List.mem_cons_self _ _, h⟩
      · obtain ⟨kv', hkv', hlt⟩ := ih h
        exact ⟨kv', List.mem_cons_of_mem _ hkv', hlt⟩

theorem generateSchemaF_none :
    ∀ n v, n < recDepth v → generateSchemaF n v = none := by
  intro n
  induction n with
  | zero => intro v _; rfl
  | succ n ih =>
      intro v hv
      cases v with
      | null => simp [recDepth] at hv
      | undef => simp [recDepth] at hv
      | bool b => simp [recDepth] at hv
      | num m => simp [recDepth] at hv
      | str s => simp [recDepth] at hv
      | arr xs =>
          cases xs with
          | nil => simp [recDepth] at hv
          | cons x rest =>
              have hx : n < recDepth x := by
                simp only [recDepth] at hv
                omega
              simp [generateSchemaF, ih x hx]
      | obj l =>
          have hl : n < recDepthEntries l := by
            simp only [recDepth] at hv
            omega
          obtain ⟨kv, hkv, hlt⟩ := exists_entry_of_lt_recDepthEntries hl
          have : schemaPropsF (generateSchemaF n) l = none :=
            schemaPropsF_none _ _ ⟨kv, hkv, ih kv.2 hlt⟩
          simp [generateSchemaF, this]

theorem recDepthEntries_le_structDepthEntries
    (l : List (String × Value))
    (h : ∀ kv ∈ l, recDepth kv.2 ≤ structDepth kv.2) :
    recDepthEntries l ≤ structDepthEntries l := by
  induction l with
  | nil => simp [recDepthEntries, structDepthEntries]
  | cons kv rest ih =>
      exact max_le_max (h kv (List.mem_cons_self _ _))
        (ih fun kv' hkv' => h kv' (List.mem_cons_of_mem _ hkv'))

theorem recDepth_le_structDepth (v : Value) : recDepth v ≤ structDepth v := by
  induction v using Value.recMem with
  | hnull => simp [recDepth, structDepth]
  | hundef => simp [recDepth, structDepth]
  | hbool b => simp [recDepth, structDepth]
  | hnum n => simp [recDepth, structDepth]
  | hstr s => simp [recDepth, structDepth]
  | harr xs ih =>
      cases xs with
      | nil => simp [recDepth, structDepth, structDepthList]
      | cons x rest =>
          have hx := ih x (List.mem_cons_self _ _)
          have : structDepth x ≤ structDepthList (x :: rest) := le_max_left _ _
          simp only [recDepth, structDepth]
          omega
  | hobj l ih =>
      have := recDepthEntries_le_structDepthEntries l ih
      simp only [recDepth, structDepth]
      omega

/-! ### C7 -/

/-- C7 amended: the inferencer is total — with fuel equal to its recursion
depth the instrumented run completes and agrees with the plain function,
one unit less fails (so `recDepth` is exactly the recursion depth), and
that depth is bounded by the input's structural depth. -/
theorem infer_total_recursion_depth_bounded (v : Value) :
    generateSchemaF (recDepth v) v = some (generateSchema v) ∧
    generateSchemaF (recDepth v - 1) v = none ∧
    recDepth v ≤ structDepth v :=
  ⟨generateSchemaF_complete _ v le_rfl,
   generateSchemaF_none _ v (by have := recDepth_pos v; omega),
   recDepth_le_structDepth v⟩

/-- C7 counterexample: on `[0, [0]]` the recursion depth is 2 (only the
first array element is descended into) while the structural depth is 3, so
recursion depth is not always equal to structural depth; fuel 2 — less
than the structural depth — already completes the run. -/
theorem infer_recursion_depth_ne_structural_depth :
    recDepth (.arr [.num 0, .arr [.num 0]]) = 2 ∧
    structDepth (.arr [.num 0, .arr [.num 0]]) = 3 ∧
    generateSchemaF 2 (.arr [.num 0, .arr [.num 0]]) =
      some (generateSchema (.arr [.num 0, .arr [.num 0]])) :=
  ⟨rfl, rfl, rfl⟩

/-! ### Descriptor depth and C9 -/

mutual

/-- Depth of a descriptor tree: the empty descriptor counts 0, a primitive
descriptor 1, array and object descriptors one more than their children. -/
def descDepth : Desc → Nat
  | .prim _ => 1
  | .empty => 0
  | .arrD d => 1 + descDepth d
  | .objD ps _ => 1 + descDepthProps ps

def descDepthProps : List (String × Desc) → Nat
  | [] => 0
  | kd :: rest => max (descDepth kd.2) (descDepthProps rest)

end

theorem descDepthProps_schemaProps (l : List (String × Value))
    (h : ∀ kv ∈ l, descDepth (generateSchema kv.2) ≤ structDepth kv.2) :
    descDepthProps (schemaProps l) ≤ structDepthEntries l := by
  induction l with
  | nil => simp [schemaProps, descDepthProps, structDepthEntries]
  | cons kv rest ih =>
      obtain ⟨k, v⟩ := kv
      simp only [schemaProps, descDepthProps, structDepthEntries]
      exact max_le_max (h (k, v) (List.mem_cons_self _ _))
        (ih fun kv' hkv' => h kv' (List.mem_cons_of_mem _ hkv'))

theorem descDepth_generateSchema_le (v : Value) :
    descDepth (generateSchema v) ≤ structDepth v := by
  induction v using Value.recMem with
  | hnull => simp [generateSchema, descDepth, structDepth]
  | hundef => simp [generateSchema, descDepth, structDepth]
  | hbool b => simp [generateSchema, descDepth, structDepth]
  | hnum n => simp [generateSchema, descDepth, structDepth]
  | hstr s => simp [generateSchema, descDepth, structDepth]
  | harr xs ih =>
      cases xs with
      | nil => simp [generateSchema, descDepth, structDepth, structDepthList]
      | cons x rest =>
          have hx := ih x (List.mem_cons_self _ _)
          have hle : structDepth x ≤ structDepthList (x :: rest) :=
            le_max_left _ _
          show 1 + descDepth (generateSchema x) ≤ 1 + structDepthList (x :: rest)
          omega
  | hobj l ih =>
      have := descDepthProps_schemaProps l ih
      show 1 + descDepthProps (schemaProps l) ≤ 1 + structDepthEntries l
      omega

/-- C9: the descriptor tree follows the shape of the input — its depth
never exceeds the input's structural depth, an object descriptor carries
exactly the input object's keys in `properties` (in order), and an array
node collapses to the single representative descriptor of its first
element. -/
theorem infer_shape_invariant :
    (∀ v, descDepth (generateSchema v) ≤ structDepth v) ∧
    (∀ l : List (String × Value),
      generateSchema (.obj l) = .objD (schemaProps l) (requiredKeys l) ∧
      (schemaProps l).map Prod.fst = l.map Prod.fst) ∧
    (∀ (x : Value) (xs : List Value),
      generateSchema (.arr (x :: xs)) = .arrD (generateSchema x)) :=
  ⟨descDepth_generateSchema_le,
   fun l => ⟨rfl, schemaProps_keys l⟩,
   fun _ _ => rfl⟩

/-! ### C10: shape exclusivity -/

/-- Recognizer of the empty descriptor `{}`. -/
def isEmptyDesc : Desc → Bool
  | .empty => true
  | _ => false

mutual

/-- `{}` appears in a descriptor only as the `items` of an array
descriptor, never anywhere else. -/
def emptyOnlyAsItems : Desc → Bool
  | .prim _ => true
  | .empty => false
  | .arrD d => isEmptyDesc d || emptyOnlyAsItems d
  | .objD ps _ => emptyOnlyAsItemsProps ps

def emptyOnlyAsItemsProps : List (String × Desc) → Bool
  | [] => true
  | kd :: rest => emptyOnlyAsItems kd.2 && emptyOnlyAsItemsProps rest

end

theorem isEmptyDesc_generateSchema (v : Value) :
    isEmptyDesc (generateSchema v) = false := by
  cases v with
  | arr xs => cases xs <;> rfl
  | _ => rfl

theorem emptyOnlyAsItemsProps_schemaProps (l : List (String × Value))
    (h : ∀ kv ∈ l, emptyOnlyAsItems (generateSchema kv.2) = true) :
    emptyOnlyAsItemsProps (schemaProps l) = true := by
  induction l with
  | nil => rfl
  | cons kv rest ih =>
      obtain ⟨k, v⟩ := kv
      simp only [schemaProps, emptyOnlyAsItemsProps, Bool.and_eq_true]
      exact ⟨h (k, v) (List.mem_cons_self _ _),
        ih fun kv' hkv' => h kv' (List.mem_cons_of_mem _ hkv')⟩

theorem emptyOnlyAsItems_generateSchema (v : Value) :
    emptyOnlyAsItems (generateSchema v) = true := by
  induction v using Value.recMem with
  | hnull => rfl
  | hundef => rfl
  | hbool b => rfl
  | hnum n => rfl
  | hstr s => rfl
  | harr xs ih =>
      cases xs with
      | nil => rfl
      | cons x rest =>
          show (isEmptyDesc (generateSchema x) ||
            emptyOnlyAsItems (generateSchema x)) = true
          rw [ih x (List.mem_cons_self _ _), Bool.or_true]
  | hobj l ih =>
      exact emptyOnlyAsItemsProps_schemaProps l ih

/-- C10: shape exclusivity.  The inferencer never returns the empty
descriptor; `{}` occurs inside a result only as the `items` of an array
descriptor, and an `{type:"array", items:{}}` result arises exactly from
the empty array input; the rendered JSON always has exactly one of the
field sets `type` / `type,items` / `type,properties` /
`type,properties,required`; and `required`, when present, is a sublist of
the `properties` keys in their relative order. -/
theorem infer_shape_exclusivity :
    (∀ v, isEmptyDesc (generateSchema v) = false) ∧
    (∀ v, emptyOnlyAsItems (generateSchema v) = true) ∧
    (∀ v, generateSchema v = .arrD .empty ↔ v = .arr []) ∧
    (∀ v, topKeys (descToValue (generateSchema v)) = ["type"] ∨
      topKeys (descToValue (generateSchema v)) = ["type", "items"] ∨
      topKeys (descToValue (generateSchema v)) = ["type", "properties"] ∨
      topKeys (descToValue (generateSchema v)) =
        ["type", "properties", "required"]) ∧
    (∀ l : List (String × Value),
      List.Sublist (requiredKeys l) ((schemaProps l).map Prod.fst)) := by
  have hne : ∀ v, isEmptyDesc (generateSchema v) = false :=
    isEmptyDesc_generateSchema
  refine ⟨hne, emptyOnlyAsItems_generateSchema, ?_, ?_, ?_⟩
  · intro v
    constructor
    · intro h
      cases v with
      | arr xs =>
          cases xs with
          | nil => rfl
          | cons x rest =>
              have hx : generateSchema x = .empty := by
                have := h
                simp only [generateSchema, Desc.arrD.injEq] at this
                exact this
              have := hne x
              rw [hx] at this
              cases this
      | null => cases h
      | undef => cases h
      | bool b => cases h
      | num n => cases h
      | str s => cases h
      | obj l => cases h
    · intro h
      subst h
      rfl
  · intro v
    cases v with
    | null => exact Or.inl rfl
    | undef => exact Or.inl rfl
    | bool b => exact Or.inl rfl
    | num n => exact Or.inl rfl
    | str s => exact Or.inl rfl
    | arr xs => cases xs <;> exact Or.inr (Or.inl rfl)
    | obj l =>
        by_cases hreq : (requiredKeys l).isEmpty
        · refine Or.inr (Or.inr (Or.inl ?_))
          show topKeys (descToValue (.objD (schemaProps l) (requiredKeys l))) = _
          simp [descToValue, hreq, topKeys]
        · refine Or.inr (Or.inr (Or.inr ?_))
          show topKeys (descToValue (.objD (schemaProps l) (requiredKeys l))) = _
          simp [descToValue, hreq, topKeys]
  · intro l
    rw [requiredKeys_eq_filter, schemaProps_keys]
    exact (List.filter_sublist l).map Prod.fst

/-! ### C8: determinism up to object key order -/

/-- Key order used to canonicalise object entries: compare keys by their
character lists. -/
def strLE (a b : String) : Prop := a.data ≤ b.data

instance : DecidableRel strLE :=
  fun a b => inferInstanceAs (Decidable (a.data ≤ b.data))

instance : IsTotal String strLE := ⟨fun a b => le_total a.data b.data⟩

instance : IsTrans String strLE := ⟨fun _ _ _ h1 h2 => le_trans h1 h2⟩

instance : IsAntisymm String strLE :=
  ⟨fun _ _ h1 h2 => String.toList_inj.mp (le_antisymm h1 h2)⟩

/-- The same order lifted to key-value pairs (keys only). -/
def keyLE {α : Type} (a b : String × α) : Prop := strLE a.1 b.1

instance {α : Type} : DecidableRel (@keyLE α) :=
  fun a b => inferInstanceAs (Decidable (strLE a.1 b.1))

instance {α : Type} : IsTotal (String × α) keyLE :=
  ⟨fun a b => le_total a.1.data b.1.data⟩

instance {α : Type} : IsTrans (String × α) keyLE :=
  ⟨fun _ _ _ h1 h2 => le_trans h1 h2⟩

def sortStrings (l : List String) : List String := List.insertionSort strLE l

mutual

/-- Canonical form of a JSON value: object entries sorted by key at every
level.  Two values are structurally identical up to object key insertion
order exactly when their canonical forms are equal. -/
def canonV : Value → Value
  | .null => .null
  | .undef => .undef
  | .bool b => .bool b
  | .num n => .num n
  | .str s => .str s
  | .arr xs => .arr (canonVList xs)
  | .obj l => .obj (List.insertionSort keyLE (canonVEntries l))

def canonVList : List Value → List Value
  | [] => []
  | x :: rest => canonV x :: canonVList rest

def canonVEntries : List (String × Value) → List (String × Value)
  | [] => []
  | (k, v) :: rest => (k, canonV v) :: canonVEntries rest

end

mutual

/-- Canonical form of a descriptor: `properties` sorted by key at every
level; with `sortReq := false` the `required` lists are left untouched
(the claim's key-order-insensitive comparison of `properties` only), with
`sortReq := true` they are sorted as well. -/
def canonDesc (sortReq : Bool) : Desc → Desc
  | .prim t => .prim t
  | .empty => .empty
  | .arrD d => .arrD (canonDesc sortReq d)
  | .objD ps rs =>
      .objD (List.insertionSort keyLE (canonDescProps sortReq ps))
            (if sortReq then sortStrings rs else rs)

def canonDescProps (sortReq : Bool) :
    List (String × Desc) → List (String × Desc)
  | [] => []
  | (k, d) :: rest => (k, canonDesc sortReq d) :: canonDescProps sortReq rest

end

theorem canonVEntries_eq_map (l : List (String × Value)) :
    canonVEntries l = l.map fun kv => (kv.1, canonV kv.2) := by
  induction l with
  | nil => rfl
  | cons kv rest ih =>
      obtain ⟨k, v⟩ := kv
      simp [canonVEntries, ih]

theorem canonDescProps_eq_map (b : Bool) (l : List (String × Desc)) :
    canonDescProps b l = l.map fun kd => (kd.1, canonDesc b kd.2) := by
  induction l with
  | nil => rfl
  | cons kd rest ih =>
      obtain ⟨k, d⟩ := kd
      simp [canonDescProps, ih]

/-- Mapping over the values only commutes with sorting by key. -/
theorem mapValues_insertionSort {α β : Type} (f : α → β)
    (l : List (String × α)) :
    (List.insertionSort keyLE l).map (fun kv => (kv.1, f kv.2)) =
      List.insertionSort keyLE (l.map fun kv => (kv.1, f kv.2)) :=
  List.map_insertionSort keyLE keyLE _ l fun _ _ _ _ => Iff.rfl

theorem insertionSort_keyLE_idem {α : Type} (l : List (String × α)) :
    List.insertionSort keyLE (List.insertionSort keyLE l) =
      List.insertionSort keyLE l :=
  List.Sorted.insertionSort_eq (List.sorted_insertionSort keyLE l)

theorem isNullOrUndef_canonV (v : Value) :
    isNullOrUndef (canonV v) = isNullOrUndef v := by
  cases v <;> rfl

theorem requiredKeys_canonVEntries (l : List (String × Value)) :
    requiredKeys (canonVEntries l) = requiredKeys l := by
  induction l with
  | nil => rfl
  | cons kv rest ih =>
      obtain ⟨k, v⟩ := kv
      simp [canonVEntries, requiredKeys, isNullOrUndef_canonV, ih]

theorem requiredKeys_perm {l₁ l₂ : List (String × Value)} (h : l₁.Perm l₂) :
    (requiredKeys l₁).Perm (requiredKeys l₂) := by
  rw [requiredKeys_eq_filter, requiredKeys_eq_filter]
  exact (h.filter _).map _

theorem sortStrings_eq_of_perm {l₁ l₂ : List String} (h : l₁.Perm l₂) :
    sortStrings l₁ = sortStrings l₂ :=
  List.eq_of_perm_of_sorted
    ((List.perm_insertionSort strLE l₁).trans
      (h.trans (List.perm_insertionSort strLE l₂).symm))
    (List.sorted_insertionSort strLE l₁)
    (List.sorted_insertionSort strLE l₂)

/-- Canonicalising the input before inference does not change the
canonical form of the resulting descriptor. -/
theorem canonDesc_generateSchema_canonV (v : Value) :
    canonDesc true (generateSchema (canonV v)) =
      canonDesc true (generateSchema v) := by
  induction v using Value.recMem with
  | hnull => rfl
  | hundef => rfl
  | hbool b => rfl
  | hnum n => rfl
  | hstr s => rfl
  | harr xs ih =>
      cases xs with
      | nil => rfl
      | cons x rest =>
          show Desc.arrD (canonDesc true (generateSchema (canonV x))) =
            Desc.arrD (canonDesc true (generateSchema x))
          rw [ih x (List.mem_cons_self _ _)]
  | hobj l ih =>
      show Desc.objD
          (List.insertionSort keyLE (canonDescProps true
            (schemaProps (List.insertionSort keyLE (canonVEntries l)))))
          (sortStrings (requiredKeys
            (List.insertionSort keyLE (canonVEntries l)))) =
        Desc.objD
          (List.insertionSort keyLE (canonDescProps true (schemaProps l)))
          (sortStrings (requiredKeys l))
      have hreq : sortStrings (requiredKeys
          (List.insertionSort keyLE (canonVEntries l))) =
          sortStrings (requiredKeys l) := by
        have hp := requiredKeys_perm
          (List.perm_insertionSort keyLE (canonVEntries l))
        rw [requiredKeys_canonVEntries] at hp
        exact sortStrings_eq_of_perm hp
      have hprops : List.insertionSort keyLE (canonDescProps true
          (schemaProps (List.insertionSort keyLE (canonVEntries l)))) =
          List.insertionSort keyLE (canonDescProps true (schemaProps l)) := by
        rw [schemaProps_eq_map (List.insertionSort keyLE (canonVEntries l)),
          mapValues_insertionSort generateSchema (canonVEntries l),
          canonDescProps_eq_map true,
          mapValues_insertionSort (canonDesc true),
          insertionSort_keyLE_idem, List.map_map,
          canonVEntries_eq_map l, List.map_map,
          canonDescProps_eq_map true (schemaProps l),
          schemaProps_eq_map l, List.map_map]
        congr 1
        apply List.map_congr_left
        intro kv hkv
        have := ih kv hkv
        simp only [Function.comp_apply]
        exact Prod.ext rfl this
      rw [hprops, hreq]

/-- C8 amended: the inferencer is deterministic, and on inputs that are
structurally identical up to object key insertion order it yields
descriptors equal up to key-order-insensitive comparison of `properties`
and up to reordering of the `required` lists. -/
theorem infer_deterministic_up_to_key_order (v₁ v₂ : Value)
    (h : canonV v₁ = canonV v₂) :
    canonDesc true (generateSchema v₁) = canonDesc true (generateSchema v₂) := by
  rw [← canonDesc_generateSchema_canonV v₁,
    ← canonDesc_generateSchema_canonV v₂, h]

/-- Witness for the amended C8 at `{a:1, b:true}` vs `{b:true, a:1}`. -/
theorem infer_deterministic_up_to_key_order_witness :
    canonDesc true (generateSchema
      (.obj [("a", .num 1), ("b", .bool true)])) =
      canonDesc true (generateSchema
        (.obj [("b", .bool true), ("a", .num 1)])) :=
  infer_deterministic_up_to_key_order
    (.obj [("a", .num 1), ("b", .bool true)])
    (.obj [("b", .bool true), ("a", .num 1)]) rfl

/-- C8 counterexample: `{a:1, b:true}` and `{b:true, a:1}` are structurally
identical up to key insertion order, yet their descriptors are not equal
under key-order-insensitive comparison of `properties` alone, because the
`required` lists keep the two different insertion orders. -/
theorem infer_key_order_changes_required :
    canonV (.obj [("a", .num 1), ("b", .bool true)]) =
      canonV (.obj [("b", .bool true), ("a", .num 1)]) ∧
    canonDesc false (generateSchema
      (.obj [("a", .num 1), ("b", .bool true)])) =
      .objD [("a", .prim "number"), ("b", .prim "boolean")] ["a", "b"] ∧
    canonDesc false (generateSchema
      (.obj [("b", .bool true), ("a", .num 1)])) =
      .objD [("a", .prim "number"), ("b", .prim "boolean")] ["b", "a"] ∧
    canonDesc false (generateSchema
      (.obj [("a", .num 1), ("b", .bool true)])) ≠
      canonDesc false (generateSchema
        (.obj [("b", .bool true), ("a", .num 1)])) := by
  refine ⟨rfl, rfl, rfl, ?_⟩
  intro h
  have h' : Desc.objD [("a", .prim "number"), ("b", .prim "boolean")]
      ["a", "b"] =
      Desc.objD [("a", .prim "number"), ("b", .prim "boolean")]
        ["b", "a"] := h
  injection h' with h1 h2
  exact absurd h2 (by decide)
